import Mathlib

/-!
Verification development for the EmaAgent streaming TTS pipeline.

Shallow embedding of:
- the per-turn reorder buffer of `src/audio/tts_manager.py`
  (`_playback_loop`, `_generate_worker`, `_trigger_generation`, `reset`);
- the websocket chat loop of `src/api/services/chat_service.py`
  (`websocket_chat`, `_process_one_message`, `audio_worker`, `on_token`,
  `_extract_non_code_text`);
- the streaming agent loop of `src/agent/EmaAgent.py` (`_chat_stream`);
- the API TTS service of `src/api/services/tts_service.py`
  (`generate`, `merge_audio_files`, `_delete_files_later`) and the
  siliconflow provider of `src/api/services/tts/siliconflow.py` (`generate`).
-/

/-! ## Reorder buffer (src/audio/tts_manager.py)

`TTSManager` keeps `expected_index` (starts at 1), a priority queue
`play_queue` fed by `_generate_worker` threads with `(index, path_or_none)`
pairs, and a dict `pending_audio`.  `_playback_loop` repeatedly: if
`expected_index` is in `pending_audio`, pop it, play it when non-null and
advance the cursor; otherwise pop the next queue item and either play it
(index equal to cursor), stash it in `pending_audio` (index above cursor),
or discard it (stale index below cursor).

The state below records the cursor, the pending map (association list with
distinct keys, mirroring the dict), the sequence of cursor releases, and
the files actually handed to `_play_file` (null placeholders are skipped).
A queue-item arrival followed by the loop-top pending drain is modelled by
`submitRB`; an arbitrary arrival order subsumes every order the priority
queue can produce. -/

structure RBState where
  expected : Nat
  pending : List (Nat × Option String)
  released : List (Nat × Option String)
  played : List String
deriving DecidableEq

/-- Fresh per-turn buffer state: `expected_index = 1`, everything empty. -/
def initRB : RBState := ⟨1, [], [], []⟩

/-- Dict membership test `priority in pending_audio` plus value read. -/
def lookupPending : List (Nat × Option String) → Nat → Option (Option String)
  | [], _ => none
  | (j, a) :: rest, i => if j = i then some a else lookupPending rest i

/-- Dict removal `pending_audio.pop(i)` (single binding per key). -/
def removePending : List (Nat × Option String) → Nat → List (Nat × Option String)
  | [], _ => []
  | (j, a) :: rest, i => if j = i then rest else (j, a) :: removePending rest i

def pendingKeys (p : List (Nat × Option String)) : List Nat := p.map Prod.fst

/-- `_playback_loop` plays `file_path` only when it is non-null. -/
def playedAfter (played : List String) (a : Option String) : List String :=
  match a with
  | some path => played ++ [path]
  | none => played

/-- The loop-top pending drain of `_playback_loop`: while `expected_index`
is in `pending_audio`, pop it, play non-null entries, advance the cursor.
Fuel bounds the iterations; each successful step removes one pending entry,
so `pending.length` fuel is exact. -/
def drainFuel : Nat → RBState → RBState
  | 0, s => s
  | fuel + 1, s =>
    match lookupPending s.pending s.expected with
    | none => s
    | some a =>
      drainFuel fuel
        { expected := s.expected + 1
          pending := removePending s.pending s.expected
          released := s.released ++ [(s.expected, a)]
          played := playedAfter s.played a }

def drainRB (s : RBState) : RBState := drainFuel s.pending.length s

/-- One `play_queue.get` with priority `idx` and payload `a`, followed by
the loop-top pending drain before the next get.  Index equal to the cursor
is released immediately; a higher index is stashed (`pending_audio[idx] = a`,
dict assignment replaces any prior binding); a stale index is discarded. -/
def submitRB (s : RBState) (idx : Nat) (a : Option String) : RBState :=
  if idx = s.expected then
    drainRB
      { expected := s.expected + 1
        pending := s.pending
        released := s.released ++ [(idx, a)]
        played := playedAfter s.played a }
  else if s.expected < idx then
    drainRB { s with pending := (idx, a) :: removePending s.pending idx }
  else
    s

/-- A whole arrival order of queue items through `_playback_loop`. -/
def processSubmissions (subs : List (Nat × Option String)) (s : RBState) : RBState :=
  subs.foldl (fun st x => submitRB st x.1 x.2) s

/-- `_generate_worker` queue put: a successful synthesis whose output file
exists enqueues `(index, path)`; every failure enqueues the null
placeholder `(index, None)` so the playback cursor can pass the index. -/
def generate_worker_put (index : Nat) (success : Bool) (out_file_present : Bool)
    (path : String) : Nat × Option String :=
  if success && out_file_present then (index, some path) else (index, none)

/-! ## TTSManager.reset (src/audio/tts_manager.py)

`reset` waits for generation threads, drains `play_queue` (deleting files),
clears `pending_audio`, and zeroes the text buffer, the sentence counter
and the cursor.  The pure state of the manager after `reset` is fixed. -/

structure TTSManagerState where
  buffer : List Char
  sentence_count : Nat
  expected_index : Nat
  play_queue : List (Nat × Option String)
  pending_audio : List (Nat × Option String)
deriving DecidableEq

def TTSManager_reset (s : TTSManagerState) : TTSManagerState :=
  { buffer := []
    sentence_count := 0
    expected_index := 1
    play_queue := []
    pending_audio := [] }

/-! ## Fence-aware extraction and sentence cutting
(src/api/services/chat_service.py) -/

/-- `FENCE_MARKER = "```"` as a character list. -/
def fenceMarker : List Char := ("```").data

/-- First occurrence of the fence marker: `raw_text.find(FENCE_MARKER)`.
Returns the text before the marker and the text after it. -/
def splitFence : List Char → Option (List Char × List Char)
  | [] => none
  | c :: rest =>
    if fenceMarker.isPrefixOf (c :: rest) then
      some ([], (c :: rest).drop 3)
    else
      match splitFence rest with
      | none => none
      | some (b, a) => some (c :: b, a)

/-- `_extract_non_code_text`: repeatedly locate a fence pair, keep the text
outside it, skip the fenced content; an unmatched opening fence is returned
whole as the carry (`raw_text[start:]`).  Fuel bounds the iterations; each
removed fence pair shortens the text, so `s.length` fuel is exact. -/
def extractFuel : Nat → List Char → List Char × List Char
  | 0, s => (s, [])
  | fuel + 1, s =>
    match splitFence s with
    | none => (s, [])
    | some (before, after) =>
      match splitFence after with
      | none => (before, fenceMarker ++ after)
      | some (_, rest) =>
        let r := extractFuel fuel rest
        (before ++ r.1, r.2)

def extract_non_code_text (s : List Char) : List Char × List Char :=
  extractFuel s.length s

/-- Python `str.strip()` whitespace set (ASCII part). -/
def isPyWhitespace (c : Char) : Bool :=
  c = ' ' || c = '\t' || c = '\n' || c = '\r' || c = '\x0b' || c = '\x0c'

def pyStrip (s : List Char) : List Char :=
  ((s.dropWhile isPyWhitespace).reverse.dropWhile isPyWhitespace).reverse

/-- `SENTENCE_SPLIT_REGEX = r"[。！？?!\n]"` of chat_service.py. -/
def isWsSentenceEnd (c : Char) : Bool :=
  c = '。' || c = '！' || c = '？' || c = '?' || c = '!' || c = '\n'

/-- `SENTENCE_SPLIT_REGEX.search` plus the cut at `match.end()`: the
sentence up to and including the first terminal, and the rest. -/
def findSentenceCut : List Char → Option (List Char × List Char)
  | [] => none
  | c :: rest =>
    if isWsSentenceEnd c then some ([c], rest)
    else
      match findSentenceCut rest with
      | none => none
      | some (s, r) => some (c :: s, r)

/-- The `while True` cutting loop of `on_token`: keep slicing complete
sentences (each stripped, as `sentence_buffer["value"][:end].strip()`)
off the front of the buffer.  Each cut shortens the buffer, so
`buf.length` fuel is exact. -/
def cutFuel : Nat → List Char → List (List Char) × List Char
  | 0, buf => ([], buf)
  | fuel + 1, buf =>
    match findSentenceCut buf with
    | none => ([], buf)
    | some (sent, rest) =>
      let r := cutFuel fuel rest
      (pyStrip sent :: r.1, r.2)

def cutSentences (buf : List Char) : List (List Char) × List Char :=
  cutFuel buf.length buf

/-- Segmenter state carried across `on_token` calls: the unclosed-fence
carry `fenced_buffer` and the sentence buffer `sentence_buffer`. -/
structure SegmenterState where
  fenced : List Char
  sentBuf : List Char
deriving DecidableEq

def initSegmenter : SegmenterState := ⟨[], []⟩

/-- One `on_token` call (segmentation part): append the token to the fence
carry, extract non-code visible text, append it to the sentence buffer,
then cut all complete sentences.  Returns the new state and the raw cut
sentences (downstream, `on_token` normalizes each cut and enqueues it when
speakable). -/
def on_token_feed (st : SegmenterState) (tok : List Char) :
    SegmenterState × List (List Char) :=
  let fenced := st.fenced ++ tok
  let vc := extract_non_code_text fenced
  let buf := st.sentBuf ++ vc.1
  let cs := cutSentences buf
  (⟨vc.2, cs.2⟩, cs.1)

/-- End-of-stream flush (after `run_stream` returns): extract any visible
text still in the fence carry, append it, and emit the stripped remainder
as a final segment when non-empty (downstream it is normalized and
enqueued when speakable). -/
def on_stream_end_flush (st : SegmenterState) : Option (List Char) :=
  let vc := extract_non_code_text st.fenced
  let buf := st.sentBuf ++ vc.1
  let fin := pyStrip buf
  if fin = [] then none else some fin

/-! ## Cancellation (src/agent/EmaAgent.py `_chat_stream`,
src/api/services/chat_service.py `audio_worker`)

The stop event is set once and never cleared; both loops poll it.  The
polls are modelled by a monotone boolean function of the poll step. -/

/-- `audio_worker`: pop a queued sentence; a `None` sentinel ends the loop;
then the stop event is checked and, when set, the loop ends without
dispatching; otherwise the sentence is dispatched to `generate`.  `i` is
the index of the current stop-event poll. -/
def audio_worker_run (flag : Nat → Bool) : Nat → List (Option String) → List String
  | _, [] => []
  | _, none :: _ => []
  | i, some s :: rest => if flag i then [] else s :: audio_worker_run flag (i + 1) rest

/-- `_chat_stream`: for each incoming token, first poll `should_stop`; when
it is set, stop with `stopped = true`; otherwise collect the token (and
forward it to `on_token`).  Returns the collected tokens and the
`stopped` flag that `run_stream` forwards into the final result. -/
def chat_stream_run (flag : Nat → Bool) : Nat → List String → List String × Bool
  | _, [] => ([], false)
  | i, tok :: rest =>
    if flag i then ([], true)
    else
      let r := chat_stream_run flag (i + 1) rest
      (tok :: r.1, r.2)

/-! ## Websocket connection loop (src/api/services/chat_service.py)

Per-connection state: the running task (`none` when absent, otherwise
whether it is done), the stop event (`none` when absent, otherwise whether
set) and the running request id. -/

structure WsConnState where
  running_task : Option Bool
  running_stop_set : Option Bool
  running_request_id : Option String
deriving DecidableEq

inductive WsIncoming
  | ping
  | stopMsg
  | message (request_id : Option String)
  | otherMsg
deriving DecidableEq

inductive WsReply
  | pong
  | stopping (request_id : Option String)
  | busyError (request_id : Option String)
  | taskStarted (request_id : String)
deriving DecidableEq

/-- State cleanup when the previous task has finished. -/
def cleanupDone (st : WsConnState) : WsConnState :=
  if st.running_task = some true then ⟨none, none, none⟩ else st

/-- One iteration of the `websocket_chat` receive loop.  `ping` answers
`pong` before any bookkeeping.  Other messages first reclaim a finished
task; `stop` sets the stop event of a live task and acknowledges with
`stopping`; a `message` while a task is live is rejected with the busy
error (echoing the incoming request id) and changes nothing; otherwise a
fresh task starts with a cleared stop event. -/
def websocket_loop_step (st : WsConnState) (freshId : String) (msg : WsIncoming) :
    WsConnState × List WsReply :=
  match msg with
  | .ping => (st, [.pong])
  | .stopMsg =>
    let st1 := cleanupDone st
    if st1.running_stop_set.isSome ∧ st1.running_task = some false then
      ({ st1 with running_stop_set := some true }, [.stopping st1.running_request_id])
    else (st1, [])
  | .otherMsg => (cleanupDone st, [])
  | .message rid =>
    let st1 := cleanupDone st
    if st1.running_task = some false then
      (st1, [.busyError rid])
    else
      let newId := rid.getD freshId
      (⟨some false, some false, some newId⟩, [.taskStarted newId])

/-! ## Terminal events of `_process_one_message`
(src/api/services/chat_service.py lines 294-495)

An empty message is answered with an `error` event; an exception anywhere
in the body is answered with an `error` event; otherwise the `done` event
is sent inside the `if audio_enabled and audio_chunks:` block only. -/

inductive WsTerminalEvent
  | errorEvent
  | doneEvent (stopped : Bool) (full_audio_url : Option String)
deriving DecidableEq

def process_one_message_terminals (emptyInput : Bool) (runRaises : Bool)
    (audio_enabled : Bool) (audio_chunks : List String) (stopped : Bool)
    (merged_url : Option String) : List WsTerminalEvent :=
  if emptyInput then [.errorEvent]
  else if runRaises then [.errorEvent]
  else if audio_enabled && !audio_chunks.isEmpty then [.doneEvent stopped merged_url]
  else []

/-! ## APITTSService (src/api/services/tts_service.py) and the
siliconflow provider (src/api/services/tts/siliconflow.py) -/

/-- `ACTION_REMOVE_REGEX = （[^）]*）|\([^)]*\)|\*[^*]*\*` substitution with
the empty string: each branch starts at its opening character and runs to
the first closing character; an unclosed opener is left in place.  Fuel
bounds the scan; one character or one whole match is consumed per step, so
`s.length` fuel is exact. -/
def dropToClose (close : Char) : List Char → Option (List Char)
  | [] => none
  | c :: rest => if c = close then some rest else dropToClose close rest

def subActionFuel : Nat → List Char → List Char
  | 0, s => s
  | _ + 1, [] => []
  | fuel + 1, c :: rest =>
    if c = '（' then
      match dropToClose '）' rest with
      | some after => subActionFuel fuel after
      | none => c :: subActionFuel fuel rest
    else if c = '(' then
      match dropToClose ')' rest with
      | some after => subActionFuel fuel after
      | none => c :: subActionFuel fuel rest
    else if c = '*' then
      match dropToClose '*' rest with
      | some after => subActionFuel fuel after
      | none => c :: subActionFuel fuel rest
    else c :: subActionFuel fuel rest

def removeActions (s : List Char) : List Char := subActionFuel s.length s

/-- Python `str.replace(pat, rep)`: leftmost, non-overlapping.  Fuel bounds
the scan as above. -/
def replaceSubFuel (pat rep : List Char) : Nat → List Char → List Char
  | 0, s => s
  | _ + 1, [] => []
  | fuel + 1, c :: rest =>
    if pat ≠ [] ∧ pat.isPrefixOf (c :: rest) then
      rep ++ replaceSubFuel pat rep fuel ((c :: rest).drop pat.length)
    else c :: replaceSubFuel pat rep fuel rest

def replaceSub (pat rep s : List Char) : List Char :=
  replaceSubFuel pat rep s.length s

def ellipsisAscii : List Char := ("...").data

def ellipsisCn : List Char := ("……").data

/-- `APITTSService._clean_text`: drop action markup, drop ellipses, strip. -/
def tts_clean_text (s : List Char) : List Char :=
  pyStrip (replaceSub ellipsisCn [] (replaceSub ellipsisAscii [] (removeActions s)))

/-- Word characters of `[^\w一-鿿]` (`\w` modelled on its ASCII
core plus the CJK block the pattern names). -/
def isWordChar (c : Char) : Bool :=
  c.isAlphanum || c = '_' || (0x4e00 ≤ c.toNat && c.toNat ≤ 0x9fff)

/-- `APITTSService._is_valid_text`: non-empty after dropping non-word
characters. -/
def tts_is_valid_text (s : List Char) : Bool := s.any isWordChar

/-- Substring containment, for `"application/json" in content_type`. -/
def hasSubstr (pat : List Char) : List Char → Bool
  | [] => pat.isEmpty
  | c :: rest => pat.isPrefixOf (c :: rest) || hasSubstr pat rest

def jsonMarker : List Char := ("application/json").data

/-- Synthesis HTTP response as seen by `generate`: status code, content
type header, and the byte length of the body (the size of the written
file). -/
structure TTSHttpResponse where
  status : Nat
  contentType : List Char
  bodyLen : Nat
deriving DecidableEq

/-- Outcome of one `generate` call: the returned path (or `None`) and
whether an artifact file is left on disk. -/
structure GenOutcome where
  result : Option String
  fileRetained : Bool
deriving DecidableEq

/-- `APITTSService.generate`: reject non-speakable text and a missing API
key before the network call; a raised request, a non-200 status, or a JSON
content type yield `None` with no file written; a written body smaller
than 10 bytes is deleted and `None` returned; otherwise the path is
returned. -/
def APITTSService_generate (api_key : String) (requestRaises : Bool)
    (resp : TTSHttpResponse) (outPath : String) (text : List Char) : GenOutcome :=
  if !tts_is_valid_text (tts_clean_text text) then ⟨none, false⟩
  else if api_key = "" then ⟨none, false⟩
  else if requestRaises then ⟨none, false⟩
  else if resp.status ≠ 200 then ⟨none, false⟩
  else if hasSubstr jsonMarker resp.contentType then ⟨none, false⟩
  else if resp.bodyLen < 10 then ⟨none, false⟩
  else ⟨some outPath, true⟩

/-- `SiliconflowTTSProvider.generate`: same response guards, no text
validity precheck. -/
def SiliconflowTTSProvider_generate (api_key : String) (requestRaises : Bool)
    (resp : TTSHttpResponse) (outPath : String) : GenOutcome :=
  if api_key = "" then ⟨none, false⟩
  else if requestRaises then ⟨none, false⟩
  else if resp.status ≠ 200 then ⟨none, false⟩
  else if hasSubstr jsonMarker resp.contentType then ⟨none, false⟩
  else if resp.bodyLen < 10 then ⟨none, false⟩
  else ⟨some outPath, true⟩

/-! ## merge_audio_files and delayed deletion
(src/api/services/tts_service.py) -/

def CHUNK_DELETE_DELAY_SECONDS : Nat := 180

/-- Outcome of `merge_audio_files`: the returned merged path (or `None`),
whether a merged file is left on disk, and the delayed deletions scheduled
by `_delete_files_later` as `(path, deletion_timestamp)` pairs (the worker
thread sleeps `max(1, delay_seconds)` from the merge completion time). -/
structure MergeOutcome where
  result : Option String
  mergedRetained : Bool
  scheduledDeletes : List (String × Nat)
deriving DecidableEq

/-- `merge_audio_files`: empty input or no existing input file returns
`None` before any file is created; a raised write deletes the partial
merged file and returns `None`; a merged result smaller than 10 bytes is
deleted and `None` returned; on success the per-segment deletions are
scheduled `max 1 CHUNK_DELETE_DELAY_SECONDS` seconds after `now` on a
background thread and the merged path is returned. -/
def merge_audio_files (existsF : String → Bool) (sizeF : String → Nat)
    (writeRaises : Bool) (now : Nat) (file_paths : List String)
    (mergedPath : String) : MergeOutcome :=
  if file_paths = [] then ⟨none, false, []⟩
  else
    let valid := file_paths.filter fun p => !p.isEmpty && existsF p
    if valid = [] then ⟨none, false, []⟩
    else if writeRaises then ⟨none, false, []⟩
    else if (valid.map sizeF).sum < 10 then ⟨none, false, []⟩
    else
      ⟨some mergedPath, true,
        valid.map fun p => (p, now + max 1 CHUNK_DELETE_DELAY_SECONDS)⟩

/-- Invariant of the playback state after an arbitrary set `done` of
distinct indices has been submitted: the releases are exactly the maximal
already-complete prefix of indices in order, the plays are the non-null
artifacts of that prefix, and the pending map holds exactly the submitted
indices at or above the cursor. -/
def RBInv (f : Nat → Option String) (done : List Nat) (s : RBState) : Prop :=
  s.released = (List.range' 1 (s.expected - 1)).map (fun i => (i, f i))
  ∧ s.played = (List.range' 1 (s.expected - 1)).filterMap f
  ∧ 1 ≤ s.expected
  ∧ (∀ i a, (i, a) ∈ s.pending ↔ (i ∈ done ∧ s.expected ≤ i ∧ a = f i))
  ∧ (pendingKeys s.pending).Nodup
  ∧ (∀ i, 1 ≤ i → i < s.expected → i ∈ done)

/-! # Theorems -/

/-! ## Reorder-buffer helper lemmas -/

theorem lookupPending_eq_none_iff (p : List (Nat × Option String)) (i : Nat) :
    lookupPending p i = none ↔ ∀ a, (i, a) ∉ p := by
  induction p with
  | nil => simp [lookupPending]
  | cons hd tl ih =>
    obtain ⟨j, b⟩ := hd
    by_cases hj : j = i
    · subst hj
      simp only [lookupPending, if_pos rfl]
      constructor
      · intro h
        simp at h
      · intro h
        exact absurd (List.mem_cons_self (j, b) tl) (h b)
    · simp only [lookupPending, if_neg hj, ih]
      constructor
      · intro h a hc
        rcases List.mem_cons.mp hc with hc | hc
        · exact hj ((congrArg Prod.fst hc).symm)
        · exact h a hc
      · intro h a hc
        exact h a (List.mem_cons_of_mem _ hc)

theorem lookupPending_mem {p : List (Nat × Option String)} {i : Nat} {a : Option String}
    (h : lookupPending p i = some a) : (i, a) ∈ p := by
  induction p with
  | nil => simp [lookupPending] at h
  | cons hd tl ih =>
    obtain ⟨j, b⟩ := hd
    by_cases hj : j = i
    · subst hj
      simp [lookupPending] at h
      subst h
      exact List.mem_cons_self _ _
    · simp [lookupPending, hj] at h
      exact List.mem_cons_of_mem _ (ih h)

theorem lookupPending_mem_key {p : List (Nat × Option String)} {i : Nat} {a : Option String}
    (h : lookupPending p i = some a) : i ∈ pendingKeys p :=
  List.mem_map.mpr ⟨(i, a), lookupPending_mem h, rfl⟩

theorem removePending_length {p : List (Nat × Option String)} {i : Nat}
    (h : i ∈ pendingKeys p) : (removePending p i).length + 1 = p.length := by
  induction p with
  | nil => simp [pendingKeys] at h
  | cons hd tl ih =>
    obtain ⟨j, b⟩ := hd
    by_cases hj : j = i
    · simp [removePending, hj]
    · simp only [pendingKeys, List.map_cons, List.mem_cons] at h
      rcases h with h | h
      · exact absurd h.symm hj
      · have := ih h
        simp only [removePending, if_neg hj, List.length_cons]
        omega

theorem mem_removePending {p : List (Nat × Option String)}
    (hnd : (pendingKeys p).Nodup) {i : Nat} (j : Nat) (b : Option String) :
    (j, b) ∈ removePending p i ↔ ((j, b) ∈ p ∧ j ≠ i) := by
  induction p with
  | nil => simp [removePending]
  | cons hd tl ih =>
    obtain ⟨k, a⟩ := hd
    simp only [pendingKeys, List.map_cons, List.nodup_cons] at hnd
    obtain ⟨hk, hnd'⟩ := hnd
    by_cases hki : k = i
    · subst hki
      simp only [removePending, if_pos rfl, List.mem_cons]
      constructor
      · intro hm
        refine ⟨Or.inr hm, ?_⟩
        intro hji
        subst hji
        exact hk (List.mem_map.mpr ⟨(j, b), hm, rfl⟩)
      · rintro ⟨hm | hm, hne⟩
        · exact absurd (congrArg Prod.fst hm) hne
        · exact hm
    · simp only [removePending, if_neg hki, List.mem_cons, ih hnd']
      constructor
      · rintro (hm | ⟨hm, hne⟩)
        · exact ⟨Or.inl hm, fun hji => hki ((congrArg Prod.fst hm).symm.trans hji)⟩
        · exact ⟨Or.inr hm, hne⟩
      · rintro ⟨hm | hm, hne⟩
        · exact Or.inl hm
        · exact Or.inr ⟨hm, hne⟩

theorem pendingKeys_removePending_sublist (p : List (Nat × Option String)) (i : Nat) :
    (pendingKeys (removePending p i)).Sublist (pendingKeys p) := by
  induction p with
  | nil => simp [removePending, pendingKeys]
  | cons hd tl ih =>
    obtain ⟨k, a⟩ := hd
    by_cases hk : k = i
    · subst hk
      simp only [removePending, if_pos rfl, pendingKeys, List.map_cons]
      exact List.sublist_cons_of_sublist _ (List.Sublist.refl _)
    · simp only [removePending, if_neg hk, pendingKeys, List.map_cons]
      exact List.Sublist.cons₂ _ ih

theorem removePending_not_mem {p : List (Nat × Option String)} {i : Nat}
    (h : i ∉ pendingKeys p) : removePending p i = p := by
  induction p with
  | nil => rfl
  | cons hd tl ih =>
    obtain ⟨k, a⟩ := hd
    simp only [pendingKeys, List.map_cons, List.mem_cons, not_or] at h
    obtain ⟨hki, htl⟩ := h
    simp only [removePending, if_neg (Ne.symm hki)]
    rw [ih htl]

theorem range'_one_snoc {e : Nat} (he : 1 ≤ e) :
    List.range' 1 e = List.range' 1 (e - 1) ++ [e] := by
  have h2 : e - 1 + 1 = e := by omega
  have h3 := @List.range'_concat 1 1 (e - 1)
  simp only [one_mul] at h3
  have h4 : 1 + (e - 1) = e := by omega
  rw [← h2, h3, h4, h2]

theorem drainFuel_inv (f : Nat → Option String) (done : List Nat) :
    ∀ (fuel : Nat) (s : RBState), s.pending.length ≤ fuel → RBInv f done s →
      RBInv f done (drainFuel fuel s) ∧
      lookupPending (drainFuel fuel s).pending (drainFuel fuel s).expected = none := by
  intro fuel
  induction fuel with
  | zero =>
    intro s hlen hinv
    have hnil : s.pending = [] := List.eq_nil_of_length_eq_zero (Nat.le_zero.mp hlen)
    refine ⟨hinv, ?_⟩
    simp [drainFuel, hnil, lookupPending]
  | succ fuel ih =>
    intro s hlen hinv
    obtain ⟨hrel, hply, hone, hpend, hnd, hdone⟩ := hinv
    cases hl : lookupPending s.pending s.expected with
    | none =>
      have hid : drainFuel (fuel + 1) s = s := by
        simp [drainFuel, hl]
      rw [hid]
      exact ⟨⟨hrel, hply, hone, hpend, hnd, hdone⟩, hl⟩
    | some a =>
      have hmem := lookupPending_mem hl
      obtain ⟨hedone, _, haf⟩ := (hpend s.expected a).mp hmem
      have hkey : s.expected ∈ pendingKeys s.pending := lookupPending_mem_key hl
      have hstep : drainFuel (fuel + 1) s = drainFuel fuel
          { expected := s.expected + 1
            pending := removePending s.pending s.expected
            released := s.released ++ [(s.expected, a)]
            played := playedAfter s.played a } := by
        simp [drainFuel, hl]
      have hlen' : (removePending s.pending s.expected).length ≤ fuel := by
        have := removePending_length hkey
        omega
      have hr := range'_one_snoc hone
      have hinv' : RBInv f done
          { expected := s.expected + 1
            pending := removePending s.pending s.expected
            released := s.released ++ [(s.expected, a)]
            played := playedAfter s.played a } := by
        refine ⟨?_, ?_, ?_, ?_, ?_, ?_⟩
        · show s.released ++ [(s.expected, a)] =
            (List.range' 1 (s.expected + 1 - 1)).map (fun i => (i, f i))
          have h5 : s.expected + 1 - 1 = s.expected := by omega
          rw [h5, hr, List.map_append, ← hrel, haf]
          simp
        · show playedAfter s.played a = (List.range' 1 (s.expected + 1 - 1)).filterMap f
          have h5 : s.expected + 1 - 1 = s.expected := by omega
          rw [h5, hr, List.filterMap_append, ← hply, haf]
          cases hfe : f s.expected with
          | none => simp [playedAfter, hfe]
          | some pth => simp [playedAfter, hfe]
        · show 1 ≤ s.expected + 1
          omega
        · intro i b
          show (i, b) ∈ removePending s.pending s.expected ↔
            (i ∈ done ∧ s.expected + 1 ≤ i ∧ b = f i)
          rw [mem_removePending hnd]
          rw [hpend i b]
          constructor
          · rintro ⟨⟨hid, hle, hbf⟩, hne⟩
            exact ⟨hid, by omega, hbf⟩
          · rintro ⟨hid, hle, hbf⟩
            exact ⟨⟨hid, by omega, hbf⟩, by omega⟩
        · exact (pendingKeys_removePending_sublist s.pending s.expected).nodup hnd
        · intro i h1 hlt
          rcases Nat.lt_succ_iff_lt_or_eq.mp hlt with h | h
          · exact hdone i h1 h
          · exact h ▸ hedone
      rw [hstep]
      exact ih _ hlen' hinv'

theorem drainRB_inv (f : Nat → Option String) (done : List Nat) (s : RBState)
    (hinv : RBInv f done s) :
    RBInv f done (drainRB s) ∧
    lookupPending (drainRB s).pending (drainRB s).expected = none :=
  drainFuel_inv f done s.pending.length s le_rfl hinv

theorem submitRB_inv (f : Nat → Option String) (done : List Nat) (s : RBState) (j : Nat)
    (hinv : RBInv f done s)
    (hdr : lookupPending s.pending s.expected = none)
    (hj1 : 1 ≤ j) (hjnew : j ∉ done) :
    RBInv f (j :: done) (submitRB s j (f j)) ∧
    lookupPending (submitRB s j (f j)).pending (submitRB s j (f j)).expected = none := by
  obtain ⟨hrel, hply, hone, hpend, hnd, hdone⟩ := hinv
  rcases Nat.lt_trichotomy j s.expected with hlt | heq | hgt
  · exact absurd (hdone j hj1 hlt) hjnew
  · -- the submitted index equals the cursor: immediate release, then drain
    have hr := range'_one_snoc hone
    have hsub : submitRB s j (f j) = drainRB
        { expected := s.expected + 1
          pending := s.pending
          released := s.released ++ [(j, f j)]
          played := playedAfter s.played (f j) } := by
      simp [submitRB, heq]
    have hinv1 : RBInv f (j :: done)
        { expected := s.expected + 1
          pending := s.pending
          released := s.released ++ [(j, f j)]
          played := playedAfter s.played (f j) } := by
      refine ⟨?_, ?_, ?_, ?_, ?_, ?_⟩
      · show s.released ++ [(j, f j)] =
          (List.range' 1 (s.expected + 1 - 1)).map (fun i => (i, f i))
        have h5 : s.expected + 1 - 1 = s.expected := by omega
        rw [h5, hr, List.map_append, ← hrel, heq]
        simp
      · show playedAfter s.played (f j) =
          (List.range' 1 (s.expected + 1 - 1)).filterMap f
        have h5 : s.expected + 1 - 1 = s.expected := by omega
        rw [h5, hr, List.filterMap_append, ← hply, heq]
        cases hfe : f s.expected with
        | none => simp [playedAfter, hfe]
        | some pth => simp [playedAfter, hfe]
      · show 1 ≤ s.expected + 1
        omega
      · intro i b
        show (i, b) ∈ s.pending ↔ (i ∈ j :: done ∧ s.expected + 1 ≤ i ∧ b = f i)
        rw [hpend i b]
        constructor
        · rintro ⟨hid, hle, hbf⟩
          have hne : i ≠ s.expected := by
            intro hc
            have hmem : (i, b) ∈ s.pending := (hpend i b).mpr ⟨hid, hle, hbf⟩
            exact (lookupPending_eq_none_iff s.pending s.expected).mp hdr b (hc ▸ hmem)
          exact ⟨List.mem_cons_of_mem _ hid, by omega, hbf⟩
        · rintro ⟨hid, hle, hbf⟩
          rcases List.mem_cons.mp hid with hc | hc
          · exfalso
            omega
          · exact ⟨hc, by omega, hbf⟩
      · exact hnd
      · intro i h1 hlt
        rcases Nat.lt_succ_iff_lt_or_eq.mp hlt with h | h
        · exact List.mem_cons_of_mem _ (hdone i h1 h)
        · rw [h, ← heq]
          exact List.mem_cons_self _ _
    rw [hsub]
    exact drainRB_inv f (j :: done) _ hinv1
  · -- the submitted index is above the cursor: stash it, drain is a no-op
    have hjkeys : j ∉ pendingKeys s.pending := by
      intro hk
      obtain ⟨x, hxmem, hxfst⟩ := List.mem_map.mp hk
      obtain ⟨x1, x2⟩ := x
      cases hxfst
      exact hjnew ((hpend _ x2).mp hxmem).1
    have hsub : submitRB s j (f j) = drainRB
        { s with pending := (j, f j) :: removePending s.pending j } := by
      have hne : j ≠ s.expected := by omega
      simp [submitRB, hne, hgt]
    rw [removePending_not_mem hjkeys] at hsub
    have hinv1 : RBInv f (j :: done) { s with pending := (j, f j) :: s.pending } := by
      refine ⟨hrel, hply, hone, ?_, ?_, ?_⟩
      · intro i b
        show (i, b) ∈ (j, f j) :: s.pending ↔ (i ∈ j :: done ∧ s.expected ≤ i ∧ b = f i)
        constructor
        · intro hm
          rcases List.mem_cons.mp hm with hm | hm
          · injection hm with hi hb
            subst hi
            subst hb
            exact ⟨List.mem_cons_self _ _, by omega, rfl⟩
          · obtain ⟨hid, hle, hbf⟩ := (hpend i b).mp hm
            exact ⟨List.mem_cons_of_mem _ hid, hle, hbf⟩
        · rintro ⟨hid, hle, hbf⟩
          rcases List.mem_cons.mp hid with hc | hc
          · subst hc
            rw [hbf]
            exact List.mem_cons_self _ _
          · exact List.mem_cons_of_mem _ ((hpend i b).mpr ⟨hc, hle, hbf⟩)
      · show (pendingKeys ((j, f j) :: s.pending)).Nodup
        simp only [pendingKeys, List.map_cons, List.nodup_cons]
        exact ⟨hjkeys, hnd⟩
      · intro i h1 hlt
        exact List.mem_cons_of_mem _ (hdone i h1 hlt)
    have hdr1 : lookupPending ((j, f j) :: s.pending) s.expected = none := by
      have hne : j ≠ s.expected := by omega
      simp only [lookupPending, if_neg hne]
      exact hdr
    have hfix : drainRB { s with pending := (j, f j) :: s.pending }
        = { s with pending := (j, f j) :: s.pending } := by
      simp [drainRB, drainFuel, hdr1]
    rw [hsub, hfix]
    exact ⟨hinv1, hdr1⟩

theorem processSubmissions_inv (f : Nat → Option String) :
    ∀ (subs : List Nat) (done : List Nat) (s : RBState),
      RBInv f done s →
      lookupPending s.pending s.expected = none →
      (∀ j ∈ subs, 1 ≤ j) →
      (∀ j ∈ subs, j ∉ done) →
      subs.Nodup →
      RBInv f (subs.reverse ++ done)
        (processSubmissions (subs.map fun i => (i, f i)) s) ∧
      lookupPending (processSubmissions (subs.map fun i => (i, f i)) s).pending
        (processSubmissions (subs.map fun i => (i, f i)) s).expected = none := by
  intro subs
  induction subs with
  | nil =>
    intro done s hinv hdr _ _ _
    simpa [processSubmissions] using ⟨hinv, hdr⟩
  | cons j rest ih =>
    intro done s hinv hdr h1 hnewdone hnd
    have hstep : processSubmissions ((j :: rest).map fun i => (i, f i)) s
        = processSubmissions (rest.map fun i => (i, f i)) (submitRB s j (f j)) := by
      simp [processSubmissions]
    obtain ⟨hinv', hdr'⟩ :=
      submitRB_inv f done s j hinv hdr (h1 j (List.mem_cons_self _ _))
        (hnewdone j (List.mem_cons_self _ _))
    have hrest := ih (j :: done) (submitRB s j (f j)) hinv' hdr'
      (fun i hi => h1 i (List.mem_cons_of_mem _ hi))
      (fun i hi hc => by
        rcases List.mem_cons.mp hc with hc | hc
        · exact (List.nodup_cons.mp hnd).1 (hc ▸ hi)
        · exact hnewdone i (List.mem_cons_of_mem _ hi) hc)
      (List.nodup_cons.mp hnd).2
    have harr : rest.reverse ++ (j :: done) = (j :: rest).reverse ++ done := by
      simp
    rw [hstep]
    exact harr ▸ hrest

theorem processSubmissions_perm_final (N : Nat) (f : Nat → Option String) (subs : List Nat)
    (hperm : subs.Perm (List.range' 1 N)) :
    (processSubmissions (subs.map fun i => (i, f i)) initRB).expected = N + 1 ∧
    (processSubmissions (subs.map fun i => (i, f i)) initRB).released
      = (List.range' 1 N).map (fun i => (i, f i)) ∧
    (processSubmissions (subs.map fun i => (i, f i)) initRB).pending = [] ∧
    (processSubmissions (subs.map fun i => (i, f i)) initRB).played
      = (List.range' 1 N).filterMap f := by
  have hmem : ∀ j, j ∈ subs ↔ (1 ≤ j ∧ j < 1 + N) := by
    intro j
    rw [hperm.mem_iff, List.mem_range'_1]
  have hinv0 : RBInv f [] initRB := by
    refine ⟨?_, ?_, ?_, ?_, ?_, ?_⟩
    · simp [initRB]
    · simp [initRB]
    · simp [initRB]
    · intro i a
      simp [initRB]
    · simp [initRB, pendingKeys]
    · intro i h1 h2
      simp [initRB] at h2
      omega
  have hdr0 : lookupPending initRB.pending initRB.expected = none := rfl
  obtain ⟨hinv, hdr⟩ := processSubmissions_inv f subs [] initRB hinv0 hdr0
    (fun j hj => ((hmem j).mp hj).1)
    (fun j hj => by simp)
    (hperm.nodup_iff.mpr (List.nodup_range' 1 N))
  obtain ⟨hrel, hply, hone, hpend, hnd, hdone⟩ := hinv
  have hdonemem : ∀ i, i ∈ subs.reverse ++ ([] : List Nat) ↔ (1 ≤ i ∧ i < 1 + N) := by
    intro i
    rw [List.append_nil, List.mem_reverse]
    exact hmem i
  have hub : (processSubmissions (subs.map fun i => (i, f i)) initRB).expected ≤ N + 1 := by
    by_contra hc
    push_neg at hc
    have h2 := hdone (N + 1) (by omega) (by omega)
    have h3 := (hdonemem (N + 1)).mp h2
    omega
  have hlb : N + 1 ≤ (processSubmissions (subs.map fun i => (i, f i)) initRB).expected := by
    by_contra hc
    push_neg at hc
    have hEin : (processSubmissions (subs.map fun i => (i, f i)) initRB).expected
        ∈ subs.reverse ++ ([] : List Nat) := by
      refine (hdonemem _).mpr ⟨hone, by omega⟩
    have hmemp := (hpend _ (f _)).mpr ⟨hEin, le_rfl, rfl⟩
    exact (lookupPending_eq_none_iff _ _).mp hdr _ hmemp
  have hE : (processSubmissions (subs.map fun i => (i, f i)) initRB).expected = N + 1 :=
    le_antisymm hub hlb
  refine ⟨hE, ?_, ?_, ?_⟩
  · rw [hrel, hE]
    simp
  · refine List.eq_nil_iff_forall_not_mem.mpr ?_
    rintro ⟨i, b⟩ hmemp
    obtain ⟨hid, hle, _⟩ := (hpend i b).mp hmemp
    rw [hE] at hle
    have := (hdonemem i).mp hid
    omega
  · rw [hply, hE]
    simp

/-! ## Cancellation helper lemmas -/

theorem audio_worker_run_take (flag : Nat → Bool) (t : Nat)
    (hchar : ∀ j, flag j = true ↔ t ≤ j) :
    ∀ (q : List (Option String)) (i : Nat), i ≤ t →
      audio_worker_run flag i q
        = (audio_worker_run (fun d => false) i q).take (t - i) := by
  intro q
  induction q with
  | nil =>
    intro i hi
    simp [audio_worker_run]
  | cons hd rest ih =>
    intro i hi
    cases hd with
    | none => simp [audio_worker_run]
    | some s =>
      by_cases hit : t ≤ i
      · have hf : flag i = true := (hchar i).mpr hit
        rw [show t - i = 0 from by omega]
        simp [audio_worker_run, hf]
      · push_neg at hit
        have hf : flag i = false := by
          cases hfc : flag i with
          | false => rfl
          | true =>
            have := (hchar i).mp hfc
            omega
        have ht1 : t - i = (t - (i + 1)) + 1 := by omega
        simp only [audio_worker_run, hf, Bool.false_eq_true, if_false, ht1,
          List.take_succ_cons]
        rw [ih (i + 1) (by omega)]

theorem chat_stream_run_stopped (flag : Nat → Bool) (t : Nat)
    (hchar : ∀ j, flag j = true ↔ t ≤ j) :
    ∀ (tokens : List String) (i : Nat), i ≤ t → t < i + tokens.length →
      (chat_stream_run flag i tokens).2 = true := by
  intro tokens
  induction tokens with
  | nil =>
    intro i h1 h2
    simp at h2
    omega
  | cons tok rest ih =>
    intro i h1 h2
    by_cases hti : t ≤ i
    · have hf : flag i = true := (hchar i).mpr hti
      simp [chat_stream_run, hf]
    · push_neg at hti
      have hf : flag i = false := by
        cases hfc : flag i with
        | false => rfl
        | true =>
          have := (hchar i).mp hfc
          omega
      have hstep : (chat_stream_run flag i (tok :: rest)).2
          = (chat_stream_run flag (i + 1) rest).2 := by
        simp [chat_stream_run, hf]
      rw [hstep]
      refine ih (i + 1) (by omega) ?_
      simp only [List.length_cons] at h2
      omega

/-! ## Cases lemmas for generate and merge -/

theorem APITTSService_generate_cases (api_key : String) (requestRaises : Bool)
    (resp : TTSHttpResponse) (outPath : String) (text : List Char) :
    APITTSService_generate api_key requestRaises resp outPath text = ⟨none, false⟩ ∨
    (APITTSService_generate api_key requestRaises resp outPath text = ⟨some outPath, true⟩ ∧
      resp.status = 200 ∧ hasSubstr jsonMarker resp.contentType = false ∧
      10 ≤ resp.bodyLen) := by
  unfold APITTSService_generate
  split
  · exact Or.inl rfl
  · split
    · exact Or.inl rfl
    · split
      · exact Or.inl rfl
      · split
        · exact Or.inl rfl
        · split
          · exact Or.inl rfl
          · split
            · exact Or.inl rfl
            · rename_i hstat hjson hlen
              refine Or.inr ⟨rfl, not_not.mp hstat, ?_, by omega⟩
              simpa using hjson

theorem SiliconflowTTSProvider_generate_cases (api_key : String) (requestRaises : Bool)
    (resp : TTSHttpResponse) (outPath : String) :
    SiliconflowTTSProvider_generate api_key requestRaises resp outPath = ⟨none, false⟩ ∨
    (SiliconflowTTSProvider_generate api_key requestRaises resp outPath = ⟨some outPath, true⟩ ∧
      resp.status = 200 ∧ hasSubstr jsonMarker resp.contentType = false ∧
      10 ≤ resp.bodyLen) := by
  unfold SiliconflowTTSProvider_generate
  split
  · exact Or.inl rfl
  · split
    · exact Or.inl rfl
    · split
      · exact Or.inl rfl
      · split
        · exact Or.inl rfl
        · split
          · exact Or.inl rfl
          · rename_i hstat hjson hlen
            refine Or.inr ⟨rfl, not_not.mp hstat, ?_, by omega⟩
            simpa using hjson

theorem merge_audio_files_cases (existsF : String → Bool) (sizeF : String → Nat)
    (writeRaises : Bool) (now : Nat) (file_paths : List String) (mergedPath : String) :
    merge_audio_files existsF sizeF writeRaises now file_paths mergedPath
      = ⟨none, false, []⟩ ∨
    merge_audio_files existsF sizeF writeRaises now file_paths mergedPath
      = ⟨some mergedPath, true,
          (file_paths.filter fun p => !p.isEmpty && existsF p).map
            (fun p => (p, now + max 1 CHUNK_DELETE_DELAY_SECONDS))⟩ := by
  simp only [merge_audio_files]
  split
  · exact Or.inl rfl
  · split
    · exact Or.inl rfl
    · split
      · exact Or.inl rfl
      · split
        · exact Or.inl rfl
        · exact Or.inr rfl

theorem merge_failure_outcome (existsF : String → Bool) (sizeF : String → Nat)
    (writeRaises : Bool) (now : Nat) (file_paths : List String) (mergedPath : String)
    (hfail : file_paths = []
      ∨ file_paths.filter (fun p => !p.isEmpty && existsF p) = []
      ∨ writeRaises = true
      ∨ ((file_paths.filter fun p => !p.isEmpty && existsF p).map sizeF).sum < 10) :
    merge_audio_files existsF sizeF writeRaises now file_paths mergedPath
      = ⟨none, false, []⟩ := by
  simp only [merge_audio_files]
  by_cases h1 : file_paths = []
  · rw [if_pos h1]
  · rw [if_neg h1]
    rcases hfail with h | h | h | h
    · exact absurd h h1
    · rw [if_pos h]
    · by_cases h2 : file_paths.filter (fun p => !p.isEmpty && existsF p) = []
      · rw [if_pos h2]
      · rw [if_neg h2, if_pos h]
    · by_cases h2 : file_paths.filter (fun p => !p.isEmpty && existsF p) = []
      · rw [if_pos h2]
      · rw [if_neg h2]
        by_cases h3 : writeRaises
        · rw [if_pos h3]
        · rw [if_neg h3, if_pos h]

/-! ## Claim theorems -/

/-- Claim C1: for every turn with N ≥ 1 dispatched segments and any order
in which the per-segment completions (artifacts or null placeholders) are
submitted, the release sequence of the reorder buffer equals the segments'
creation order 1..N: the cursor starts at 1, a submission matching the
cursor is released immediately, others are buffered, and the cursor
advances by exactly one per release, transitively draining the buffered
entries (the final cursor is N+1 and the pending map is empty). -/
theorem reorder_releases_follow_creation_order (N : Nat) (hN : 1 ≤ N)
    (f : Nat → Option String) (subs : List Nat)
    (hperm : subs.Perm (List.range' 1 N)) :
    initRB.expected = 1 ∧
    (processSubmissions (subs.map fun i => (i, f i)) initRB).released
      = (List.range' 1 N).map (fun i => (i, f i)) ∧
    (processSubmissions (subs.map fun i => (i, f i)) initRB).expected = N + 1 ∧
    (processSubmissions (subs.map fun i => (i, f i)) initRB).pending = [] := by
  obtain ⟨hE, hrel, hpend, hply⟩ := processSubmissions_perm_final N f subs hperm
  exact ⟨rfl, hrel, hE, hpend⟩

theorem reorder_releases_follow_creation_order_witness :
    (1 ≤ 3) ∧
    initRB.expected = 1 ∧
    (processSubmissions ([2, 3, 1].map fun i => (i, some (toString i))) initRB).released
      = (List.range' 1 3).map (fun i => (i, some (toString i))) ∧
    (processSubmissions ([2, 3, 1].map fun i => (i, some (toString i))) initRB).expected
      = 3 + 1 := by
  have h := reorder_releases_follow_creation_order 3 (by decide)
    (fun i => some (toString i)) [2, 3, 1] (by decide)
  exact ⟨by decide, h.1, h.2.1, h.2.2.1⟩

/-- Claim C2: if the synthesis of segment k fails, `_generate_worker`
still submits the null placeholder `(k, none)`, the cursor advances
through it (final cursor N+1, so segments k+1..N are all released), the
release at index k carries the null payload, and the played files are
exactly the non-null artifacts — index k is never delivered to playback
and no failure blocks the release sequence. -/
theorem failed_segment_placeholder_no_deadlock (N k : Nat) (f : Nat → Option String)
    (subs : List Nat) (hk1 : 1 ≤ k) (hkN : k ≤ N) (hfk : f k = none)
    (hperm : subs.Perm (List.range' 1 N)) :
    (∀ (ex : Bool) (p : String), generate_worker_put k false ex p = (k, none)) ∧
    (processSubmissions (subs.map fun i => (i, f i)) initRB).expected = N + 1 ∧
    (k, (none : Option String))
      ∈ (processSubmissions (subs.map fun i => (i, f i)) initRB).released ∧
    (processSubmissions (subs.map fun i => (i, f i)) initRB).played
      = (List.range' 1 N).filterMap f := by
  obtain ⟨hE, hrel, hpend, hply⟩ := processSubmissions_perm_final N f subs hperm
  refine ⟨?_, hE, ?_, hply⟩
  · intro ex p
    simp [generate_worker_put]
  · rw [hrel]
    refine List.mem_map.mpr ⟨k, ?_, ?_⟩
    · rw [List.mem_range'_1]
      omega
    · rw [hfk]

theorem failed_segment_placeholder_no_deadlock_witness :
    (processSubmissions ([3, 1, 2].map fun i =>
        (i, if i = 2 then none else some (toString i))) initRB).expected = 3 + 1 ∧
    (2, (none : Option String)) ∈ (processSubmissions ([3, 1, 2].map fun i =>
        (i, if i = 2 then none else some (toString i))) initRB).released := by
  have h := failed_segment_placeholder_no_deadlock 3 2
    (fun i => if i = 2 then none else some (toString i)) [3, 1, 2]
    (by decide) (by decide) (by decide) (by decide)
  exact ⟨h.2.1, h.2.2.1⟩

/-- Claim C3: the stop flag is set once and never cleared (monotone).
Once it trips at poll step t, the dispatched segments are exactly the
first t of what would have been dispatched without cancellation — a
prefix, with nothing examined at or after the trip ever dispatched — and
when the trip happens while tokens remain, the `_chat_stream` result
carries `stopped = true`, which `run_stream` forwards into the final
result. -/
theorem cancellation_dispatch_boundary (flag : Nat → Bool) (t : Nat)
    (hmono : ∀ i j, i ≤ j → flag i = true → flag j = true)
    (ht : flag t = true) (hbelow : ∀ i, i < t → flag i = false)
    (queue : List (Option String)) (tokens : List String) :
    audio_worker_run flag 0 queue
      = (audio_worker_run (fun d => false) 0 queue).take t ∧
    (∀ i, flag i = true → (audio_worker_run flag 0 queue).length ≤ i) ∧
    (t < tokens.length → (chat_stream_run flag 0 tokens).2 = true) := by
  have hchar : ∀ j, flag j = true ↔ t ≤ j := by
    intro j
    constructor
    · intro hj
      by_contra hlt
      push_neg at hlt
      rw [hbelow j hlt] at hj
      cases hj
    · intro hj
      exact hmono t j hj ht
  have htake := audio_worker_run_take flag t hchar queue 0 (Nat.zero_le t)
  rw [Nat.sub_zero] at htake
  refine ⟨htake, ?_, ?_⟩
  · intro i hfi
    have hti := (hchar i).mp hfi
    rw [htake]
    have hlen : ((audio_worker_run (fun d => false) 0 queue).take t).length ≤ t := by
      simp [List.length_take]
    omega
  · intro hlen
    exact chat_stream_run_stopped flag t hchar tokens 0 (Nat.zero_le t) (by omega)

theorem cancellation_dispatch_boundary_witness :
    audio_worker_run (fun i => decide (1 ≤ i)) 0 [some ("s1"), some ("s2"), none]
      = (audio_worker_run (fun d => false) 0 [some ("s1"), some ("s2"), none]).take 1 ∧
    audio_worker_run (fun i => decide (1 ≤ i)) 0 [some ("s1"), some ("s2"), none]
      = [("s1")] ∧
    (chat_stream_run (fun i => decide (1 ≤ i)) 0 [("tok1"), ("tok2")]).2 = true := by
  have h := cancellation_dispatch_boundary (fun i => decide (1 ≤ i)) 1
    (fun i j hij hi => by
      simp only [decide_eq_true_eq] at hi ⊢
      omega)
    (by decide)
    (fun i hi => by
      simp only [decide_eq_false_iff_not]
      omega)
    [some ("s1"), some ("s2"), none] [("tok1"), ("tok2")]
  exact ⟨h.1, by decide, h.2.2 (by decide)⟩

/-- Claim C4 (code-bug evidence): an accepted message whose stream
completes without an exception receives no terminal event when audio is
disabled, and none either when audio is enabled but no segment was
synthesized — the `done` send of `_process_one_message` sits inside the
`if audio_enabled and audio_chunks:` block, so the client is left without
a terminal event, contradicting the claim and the method's own docstring. -/
theorem no_terminal_event_when_audio_disabled :
    process_one_message_terminals false false false [] false none = [] ∧
    process_one_message_terminals false false true [] false none = [] :=
  ⟨rfl, rfl⟩

/-- Claim C5: a message arriving while the session's task is live is
answered with the busy error echoing the incoming request id, and nothing
else happens: the running task, the stop event and the request id are all
left untouched and no new task is started. -/
theorem busy_rejection_no_state_change (st : WsConnState) (freshId : String)
    (rid : Option String) (hactive : st.running_task = some false) :
    websocket_loop_step st freshId (.message rid) = (st, [.busyError rid]) := by
  have hclean : cleanupDone st = st := by
    simp [cleanupDone, hactive]
  simp [websocket_loop_step, hclean, hactive]

theorem busy_rejection_no_state_change_witness :
    websocket_loop_step ⟨some false, some false, some ("req-1")⟩ ("fresh")
        (.message (some ("req-2")))
      = (⟨some false, some false, some ("req-1")⟩, [.busyError (some ("req-2"))]) :=
  busy_rejection_no_state_change _ _ _ rfl

/-- Claim C6 (counterexample): feeding the fragments "pre ```co" and
"de``` post." emits zero sentence cuts in both `on_token` calls — in
particular none in the call where the fence closes and the final '.'
arrives, because ASCII '.' is not in `SENTENCE_SPLIT_REGEX` — so the
claimed emission of the single segment "pre  post." upon seeing a
terminal punctuation does not happen. -/
theorem fence_straddle_no_stream_emission :
    (on_token_feed initSegmenter ("pre ```co").data).2 = [] ∧
    (on_token_feed (on_token_feed initSegmenter ("pre ```co").data).1
        ("de``` post.").data).2 = [] ∧
    (on_token_feed (on_token_feed initSegmenter ("pre ```co").data).1
        ("de``` post.").data).2 ≠ [("pre  post.").data] := by
  decide

/-- Claim C6 (amended): with fragments "pre ```co" and "de``` post.", the
segmenter emits zero segments while the fence is open and carries the
unclosed fence text "```co" forward in the residual buffer; the call in
which the closing fence arrives resumes scanning the remaining text in
the same call, leaving the sentence buffer "pre  post." with the code
content excluded — but because ASCII '.' is not in the terminal set
`[。！？?!\n]`, no terminal punctuation is ever seen and zero segments are
emitted during the stream; the single segment "pre  post." is emitted by
the end-of-stream flush instead. -/
theorem fence_straddle_flush_emission :
    (on_token_feed initSegmenter ("pre ```co").data).2 = [] ∧
    (on_token_feed initSegmenter ("pre ```co").data).1.fenced = ("```co").data ∧
    (on_token_feed (on_token_feed initSegmenter ("pre ```co").data).1
        ("de``` post.").data).2 = [] ∧
    (on_token_feed (on_token_feed initSegmenter ("pre ```co").data).1
        ("de``` post.").data).1 = ⟨[], ("pre  post.").data⟩ ∧
    on_stream_end_flush
        (on_token_feed (on_token_feed initSegmenter ("pre ```co").data).1
          ("de``` post.").data).1
      = some (("pre  post.").data) := by
  decide

/-- Claim C7: whenever the merge produces a merged artifact, deletion of
every per-segment input file is scheduled on the background timer at
`now + max 1 180` — never earlier than the merge completion time plus the
180-second grace period. -/
theorem merge_schedules_grace_period_deletions (existsF : String → Bool)
    (sizeF : String → Nat) (writeRaises : Bool) (now : Nat)
    (file_paths : List String) (mergedPath m : String)
    (hok : (merge_audio_files existsF sizeF writeRaises now file_paths mergedPath).result
      = some m) :
    (merge_audio_files existsF sizeF writeRaises now file_paths mergedPath).scheduledDeletes
      = (file_paths.filter fun p => !p.isEmpty && existsF p).map
          (fun p => (p, now + max 1 CHUNK_DELETE_DELAY_SECONDS)) ∧
    ∀ pt ∈ (merge_audio_files existsF sizeF writeRaises now
        file_paths mergedPath).scheduledDeletes,
      now + CHUNK_DELETE_DELAY_SECONDS ≤ pt.2 := by
  rcases merge_audio_files_cases existsF sizeF writeRaises now file_paths mergedPath
    with h | h
  · rw [h] at hok
    cases hok
  · rw [h]
    refine ⟨rfl, ?_⟩
    intro pt hpt
    simp only [List.mem_map] at hpt
    obtain ⟨p, hp, hpe⟩ := hpt
    rw [← hpe]
    simp [CHUNK_DELETE_DELAY_SECONDS]

theorem merge_schedules_grace_period_deletions_witness :
    (merge_audio_files (fun p => true) (fun p => 20) false 1000
        [("a.mp3")] ("merged.mp3")).scheduledDeletes
      = [(("a.mp3"), 1000 + max 1 CHUNK_DELETE_DELAY_SECONDS)] ∧
    ∀ pt ∈ (merge_audio_files (fun p => true) (fun p => 20) false 1000
        [("a.mp3")] ("merged.mp3")).scheduledDeletes,
      1000 + CHUNK_DELETE_DELAY_SECONDS ≤ pt.2 := by
  have h := merge_schedules_grace_period_deletions (fun p => true) (fun p => 20) false 1000
    [("a.mp3")] ("merged.mp3") ("merged.mp3") (by decide)
  exact ⟨by decide, h.2⟩

/-- Claim C8: both `APITTSService.generate` and
`SiliconflowTTSProvider.generate` return an artifact path only when the
response has status 200, a non-JSON content type and a body at least the
minimum viable size; in every other case they return `None` and no
artifact file is retained (a written sub-threshold file is deleted). -/
theorem tts_generate_response_guards (api_key : String) (requestRaises : Bool)
    (resp : TTSHttpResponse) (outPath : String) (text : List Char) :
    ((APITTSService_generate api_key requestRaises resp outPath text).result.isSome →
      resp.status = 200 ∧ hasSubstr jsonMarker resp.contentType = false
        ∧ 10 ≤ resp.bodyLen) ∧
    ((APITTSService_generate api_key requestRaises resp outPath text).result = none →
      (APITTSService_generate api_key requestRaises resp outPath text).fileRetained
        = false) ∧
    ((SiliconflowTTSProvider_generate api_key requestRaises resp outPath).result.isSome →
      resp.status = 200 ∧ hasSubstr jsonMarker resp.contentType = false
        ∧ 10 ≤ resp.bodyLen) ∧
    ((SiliconflowTTSProvider_generate api_key requestRaises resp outPath).result = none →
      (SiliconflowTTSProvider_generate api_key requestRaises resp outPath).fileRetained
        = false) := by
  refine ⟨?_, ?_, ?_, ?_⟩
  · intro hsome
    obtain hA | hA := APITTSService_generate_cases api_key requestRaises resp outPath text
    · rw [hA] at hsome
      simp at hsome
    · exact hA.2
  · intro hnone
    obtain hA | hA := APITTSService_generate_cases api_key requestRaises resp outPath text
    · rw [hA]
    · rw [hA.1] at hnone
      simp at hnone
  · intro hsome
    obtain hS | hS :=
      SiliconflowTTSProvider_generate_cases api_key requestRaises resp outPath
    · rw [hS] at hsome
      simp at hsome
    · exact hS.2
  · intro hnone
    obtain hS | hS :=
      SiliconflowTTSProvider_generate_cases api_key requestRaises resp outPath
    · rw [hS]
    · rw [hS.1] at hnone
      simp at hnone

theorem tts_generate_response_guards_witness :
    (APITTSService_generate ("key") false ⟨500, ("application/json").data, 3⟩
        ("out.mp3") ("hello").data).fileRetained = false ∧
    (SiliconflowTTSProvider_generate ("key") false ⟨500, ("application/json").data, 3⟩
        ("out.mp3")).fileRetained = false := by
  have h := tts_generate_response_guards ("key") false
    ⟨500, ("application/json").data, 3⟩ ("out.mp3") ("hello").data
  exact ⟨h.2.1 (by decide), h.2.2.2 (by decide)⟩

/-- Claim C9: the turn reset operation is idempotent: after one `reset`
and after two in a row, the manager state is identical, with cursor 1,
empty pending map, empty text buffer and a zero sentence counter. -/
theorem tts_manager_reset_idempotent (s : TTSManagerState) :
    TTSManager_reset (TTSManager_reset s) = TTSManager_reset s ∧
    (TTSManager_reset s).expected_index = 1 ∧
    (TTSManager_reset s).pending_audio = [] ∧
    (TTSManager_reset s).buffer = [] ∧
    (TTSManager_reset s).sentence_count = 0 ∧
    (TTSManager_reset s).play_queue = [] :=
  ⟨rfl, rfl, rfl, rfl, rfl, rfl⟩

/-- Claim C10: when the merge cannot produce a valid artifact — empty
input list, no existing input file, a raised write, or a sub-threshold
merged result — `merge_audio_files` returns `None`, leaves no merged file
behind, and schedules no delayed deletion of the input segment files. -/
theorem merge_failure_atomicity (existsF : String → Bool) (sizeF : String → Nat)
    (writeRaises : Bool) (now : Nat) (file_paths : List String) (mergedPath : String)
    (hfail : file_paths = []
      ∨ file_paths.filter (fun p => !p.isEmpty && existsF p) = []
      ∨ writeRaises = true
      ∨ ((file_paths.filter fun p => !p.isEmpty && existsF p).map sizeF).sum < 10) :
    (merge_audio_files existsF sizeF writeRaises now file_paths mergedPath).result
      = none ∧
    (merge_audio_files existsF sizeF writeRaises now file_paths mergedPath).mergedRetained
      = false ∧
    (merge_audio_files existsF sizeF writeRaises now file_paths mergedPath).scheduledDeletes
      = [] := by
  rw [merge_failure_outcome existsF sizeF writeRaises now file_paths mergedPath hfail]
  exact ⟨rfl, rfl, rfl⟩

theorem merge_failure_atomicity_witness :
    (merge_audio_files (fun p => true) (fun p => 20) true 1000
        [("a.mp3")] ("merged.mp3")).result = none ∧
    (merge_audio_files (fun p => true) (fun p => 20) true 1000
        [("a.mp3")] ("merged.mp3")).scheduledDeletes = [] := by
  have h := merge_failure_atomicity (fun p => true) (fun p => 20) true 1000
    [("a.mp3")] ("merged.mp3") (Or.inr (Or.inr (Or.inl rfl)))
  exact ⟨h.1, h.2.2⟩
